import Mathlib

/-!
Verification of the resource-protection layer of the `Analisar-Logs-com-IA`
repository: the metrics cache (`src/services/cache_service.py`), the rate
limiter (`src/services/rate_limiter.py`) and the retry executor
(`src/utils/error_handling.py`).

The Python code is shallowly embedded: timestamps and fractional token
counts are rationals (`ℚ`), Python dictionaries are association lists with
CPython insertion-order semantics (updating an existing key keeps its
position, inserting a new key appends), Python `None` is `Option.none`, and
every place the code reads the wall clock (`time.time()`) becomes an
explicit `now : ℚ` argument.  Locks are irrelevant in this single-threaded
interleaving model, and the logging decorators (`log_operation`,
`performance_monitor`) re-raise whatever escapes the wrapped body, so they
are transparent and omitted.
-/

namespace LogsIA

/-! ## Cache entries (`CacheEntry` in cache_service.py)

`data` is `Option V`: `none` models the Python value `None`, which the code
treats specially (`get` returns `None` both on a miss and for a stored
`None`; `get_or_set` re-fetches when the cached value is `None`). -/

structure CacheEntry (V : Type) where
  data : Option V
  created_at : ℚ
  ttl_seconds : ℚ
  access_count : ℕ
  last_accessed : ℚ
deriving Repr, DecidableEq

/-- `CacheEntry.__init__(data, ttl_seconds)`: `created_at` and
`last_accessed` are both `time.time()` at construction, `access_count = 0`. -/
def CacheEntry.init {V : Type} (data : Option V) (ttl_seconds : ℚ) (now : ℚ) : CacheEntry V :=
  { data := data, created_at := now, ttl_seconds := ttl_seconds
    access_count := 0, last_accessed := now }

/-- `is_expired`: `time.time() - self.created_at > self.ttl_seconds`. -/
def CacheEntry.is_expired {V : Type} (e : CacheEntry V) (now : ℚ) : Bool :=
  decide (e.ttl_seconds < now - e.created_at)

/-- `is_stale(stale_threshold=60)`: age above the threshold but not expired. -/
def CacheEntry.is_stale {V : Type} (e : CacheEntry V) (stale_threshold : ℚ) (now : ℚ) : Bool :=
  decide (stale_threshold < now - e.created_at) && !(e.is_expired now)

/-- `access`: bump `access_count`, refresh `last_accessed`, return `data`.
The returned pair is (returned value, mutated entry). -/
def CacheEntry.access {V : Type} (e : CacheEntry V) (now : ℚ) : Option V × CacheEntry V :=
  (e.data, { e with access_count := e.access_count + 1, last_accessed := now })

/-! ## Association lists with CPython dict semantics -/

/-- `d.get(k)` on a Python dict (first matching key). -/
def lookupEntry {V : Type} : List (String × CacheEntry V) → String → Option (CacheEntry V)
  | [], _ => none
  | (k0, e) :: rest, k => if k0 = k then some e else lookupEntry rest k

/-- `k in d`. -/
def hasKey {V : Type} (l : List (String × CacheEntry V)) (k : String) : Bool :=
  (lookupEntry l k).isSome

/-- `d[k] = e`: overwrite in place if the key exists, else append (CPython
dict insertion order). -/
def insertEntry {V : Type} : List (String × CacheEntry V) → String → CacheEntry V →
    List (String × CacheEntry V)
  | [], k, e => [(k, e)]
  | (k0, e0) :: rest, k, e =>
    if k0 = k then (k, e) :: rest else (k0, e0) :: insertEntry rest k e

/-- `del d[k]`: remove the first (for a dict, the only) binding of `k`. -/
def removeKey {V : Type} : List (String × CacheEntry V) → String → List (String × CacheEntry V)
  | [], _ => []
  | (k0, e0) :: rest, k => if k0 = k then rest else (k0, e0) :: removeKey rest k

/-- The key view of the dict, in iteration order. -/
def entryKeys {V : Type} (l : List (String × CacheEntry V)) : List String :=
  l.map Prod.fst

/-! ## The cache store (`MetricsCacheService`) -/

structure CacheState (V : Type) where
  entries : List (String × CacheEntry V)
  default_ttl : ℚ
  max_entries : ℤ
  hits : ℕ
  misses : ℕ
  evictions : ℕ
  refreshes : ℕ
  errors : ℕ
deriving Repr, DecidableEq

/-- `MetricsCacheService.__init__(default_ttl, max_entries)`: empty cache,
all counters zero. -/
def CacheState.init (V : Type) (default_ttl : ℚ) (max_entries : ℤ) : CacheState V :=
  { entries := [], default_ttl := default_ttl, max_entries := max_entries
    hits := 0, misses := 0, evictions := 0, refreshes := 0, errors := 0 }

/-- `ttl = ttl or self.default_ttl`: Python `or` falls through to the
default when `ttl` is `None` or the falsy integer `0`. -/
def effTtl (ttl : Option ℚ) (default_ttl : ℚ) : ℚ :=
  match ttl with
  | none => default_ttl
  | some t => if t = 0 then default_ttl else t

/-- `MetricsCacheService.get(key)`. -/
def CacheState.get {V : Type} (s : CacheState V) (key : String) (now : ℚ) :
    Option V × CacheState V :=
  match lookupEntry s.entries key with
  | none => (none, { s with misses := s.misses + 1 })
  | some entry =>
    if entry.is_expired now then
      (none, { s with entries := removeKey s.entries key, misses := s.misses + 1 })
    else
      let r := entry.access now
      (r.1, { s with entries := insertEntry s.entries key r.2, hits := s.hits + 1 })

/-- One comparison step of Python `min` over the dict items, keyed by
`last_accessed`: `min` keeps the first element attaining the minimum, so the
accumulator is replaced only on a strictly smaller key. -/
def lruStep {V : Type} (acc : Option (String × CacheEntry V)) (p : String × CacheEntry V) :
    Option (String × CacheEntry V) :=
  match acc with
  | none => some p
  | some q => if p.2.last_accessed < q.2.last_accessed then some p else some q

/-- `min(self._cache.keys(), key=lambda k: self._cache[k].last_accessed)`. -/
def lruMin {V : Type} (l : List (String × CacheEntry V)) : Option (String × CacheEntry V) :=
  l.foldl lruStep none

/-- `MetricsCacheService._evict_lru`. -/
def CacheState.evictLru {V : Type} (s : CacheState V) : CacheState V :=
  match lruMin s.entries with
  | none => s
  | some p =>
    { s with entries := removeKey s.entries p.1, evictions := s.evictions + 1 }

/-- `MetricsCacheService.set(key, data, ttl=None)`: evict the LRU entry when
the cache is full and the key is new, then store a brand-new `CacheEntry`.
The `try/except` around the body only guards out-of-memory-class storage
failures, which the model cannot produce, so `set` always returns `True`. -/
def CacheState.set {V : Type} (s : CacheState V) (key : String) (data : Option V)
    (ttl : Option ℚ) (now : ℚ) : Bool × CacheState V :=
  let t := effTtl ttl s.default_ttl
  let s1 :=
    if s.max_entries ≤ (s.entries.length : ℤ) ∧ hasKey s.entries key = false then
      s.evictLru
    else s
  (true, { s1 with entries := insertEntry s1.entries key (CacheEntry.init data t now) })

/-- `MetricsCacheService.invalidate(key)`. -/
def CacheState.invalidate {V : Type} (s : CacheState V) (key : String) :
    Bool × CacheState V :=
  if hasKey s.entries key then
    (true, { s with entries := removeKey s.entries key })
  else (false, s)

/-- `MetricsCacheService.get_or_set(key, fetch_func, ttl=None)`.  The single
call to `fetch_func` on the miss path is its result, `Except E (Option V)`:
`.error e` models a raised exception, `.ok none` a returned Python `None`.
The overall result is also an `Except`, so that (non-)propagation of fetch
errors is visible in the type; the function reads the clock once in `get`
(`tGet`) and once in `set` (`tSet`). -/
def CacheState.get_or_set {V E : Type} (s : CacheState V) (key : String)
    (fetch : Except E (Option V)) (ttl : Option ℚ) (tGet tSet : ℚ) :
    Except E (Option V) × CacheState V :=
  let r := s.get key tGet
  match r.1 with
  | some v => (Except.ok (some v), r.2)
  | none =>
    match fetch with
    | Except.error _ => (Except.ok none, { r.2 with errors := r.2.errors + 1 })
    | Except.ok fresh =>
      match fresh with
      | some v => (Except.ok (some v), (r.2.set key (some v) ttl tSet).2)
      | none => (Except.ok none, r.2)

/-- The snapshot taken by `_refresh_stale_entries`: keys whose entry is
stale (threshold 60) and which have a registered refresh function.
`funcs k` is `none` when no function is registered for `k`, and otherwise
the result of calling the registered function this cycle. -/
def staleKeys {V E : Type} (s : CacheState V) (funcs : String → Option (Except E (Option V)))
    (now : ℚ) : List String :=
  (s.entries.filter (fun p => p.2.is_stale 60 now && (funcs p.1).isSome)).map Prod.fst

/-- One iteration of the refresh loop body for key `k`. -/
def refreshStep {V E : Type} (funcs : String → Option (Except E (Option V))) (now : ℚ)
    (s : CacheState V) (k : String) : CacheState V :=
  match funcs k with
  | none => s
  | some (Except.error _) => { s with errors := s.errors + 1 }
  | some (Except.ok none) => s
  | some (Except.ok (some v)) =>
    let s1 := (s.set k (some v) none now).2
    { s1 with refreshes := s1.refreshes + 1 }

/-- `MetricsCacheService._refresh_stale_entries`: snapshot the stale keys,
then refresh each in order. -/
def CacheState.refreshStaleEntries {V E : Type} (s : CacheState V)
    (funcs : String → Option (Except E (Option V))) (now : ℚ) : CacheState V :=
  (staleKeys s funcs now).foldl (refreshStep funcs now) s

/-- A `set` call with its clock reading, for reasoning about call sequences. -/
structure SetCall (V : Type) where
  key : String
  data : Option V
  ttl : Option ℚ
  now : ℚ

/-- The trajectory of cache states after each call of a `set` sequence. -/
def CacheState.runSets {V : Type} (s : CacheState V) : List (SetCall V) → List (CacheState V)
  | [] => []
  | c :: rest =>
    let s1 := (s.set c.key c.data c.ttl c.now).2
    s1 :: s1.runSets rest

/-! ## Token bucket (`TokenBucket` in rate_limiter.py) -/

structure TokenBucket where
  capacity : ℚ
  refill_rate : ℚ
  tokens : ℚ
  last_refill : ℚ
deriving Repr, DecidableEq

/-- `TokenBucket.__init__(capacity, refill_rate)`: starts full. -/
def TokenBucket.init (capacity refill_rate : ℚ) (now : ℚ) : TokenBucket :=
  { capacity := capacity, refill_rate := refill_rate, tokens := capacity, last_refill := now }

/-- `TokenBucket.consume(tokens=1)`: refill from the elapsed time, clamp to
capacity, then consume all-or-nothing. -/
def TokenBucket.consume (b : TokenBucket) (n : ℚ) (now : ℚ) : Bool × TokenBucket :=
  let elapsed := now - b.last_refill
  let refilled := min b.capacity (b.tokens + elapsed * b.refill_rate)
  if n ≤ refilled then
    (true, { b with tokens := refilled - n, last_refill := now })
  else
    (false, { b with tokens := refilled, last_refill := now })

/-- The trajectory of bucket states after each `(n, now)` consume call. -/
def TokenBucket.runConsumes (b : TokenBucket) : List (ℚ × ℚ) → List TokenBucket
  | [] => []
  | (n, t) :: rest =>
    let b1 := (b.consume n t).2
    b1 :: b1.runConsumes rest

/-- Call clocks never run backwards: each call time is at least `t0` (the
previous refill instant) and the times are nondecreasing. -/
def timesOk : ℚ → List (ℚ × ℚ) → Bool
  | _, [] => true
  | t, (_, t1) :: rest => decide (t ≤ t1) && timesOk t1 rest

/-! ## Sliding window (`SlidingWindowLimiter` in rate_limiter.py) -/

structure SlidingWindowLimiter where
  max_requests : ℕ
  window_seconds : ℚ
  requests : List ℚ
deriving Repr, DecidableEq

/-- `SlidingWindowLimiter.is_allowed()`: pop timestamps `≤ now − window`
from the front of the deque, then admit (appending `now`) iff the remaining
count is below `max_requests`. -/
def SlidingWindowLimiter.is_allowed (l : SlidingWindowLimiter) (now : ℚ) :
    Bool × SlidingWindowLimiter :=
  let reqs := l.requests.dropWhile (fun t => decide (t ≤ now - l.window_seconds))
  if reqs.length < l.max_requests then
    (true, { l with requests := reqs ++ [now] })
  else
    (false, { l with requests := reqs })

/-- Decisions of a sequence of `is_allowed` calls at the given times. -/
def SlidingWindowLimiter.callResults (l : SlidingWindowLimiter) : List ℚ → List Bool
  | [] => []
  | t :: rest =>
    let r := l.is_allowed t
    r.1 :: r.2.callResults rest

/-- Limiter state after a sequence of `is_allowed` calls. -/
def SlidingWindowLimiter.applyCalls (l : SlidingWindowLimiter) : List ℚ → SlidingWindowLimiter
  | [] => l
  | t :: rest => (l.is_allowed t).2.applyCalls rest

/-! ## Rate limiter service (`RateLimiterService` in rate_limiter.py)

`self.limiters` is a `defaultdict` of per-endpoint dicts, each holding a
`'config'` entry plus one limiter instance per `f"{client_id}:{endpoint}"`
key.  The model splits this into `configs` (endpoint → config) and
`instances` (keyed by the `(endpoint, client_id)` pair).  The client id is
resolved from the Flask request before any limiter state is consulted; the
model takes it as the `client_id` argument. -/

inductive LimiterConfig where
  | token_bucket (capacity : ℚ) (refill_rate : ℚ)
  | sliding_window (max_requests : ℕ) (window_seconds : ℚ)
deriving Repr, DecidableEq

inductive LimiterInstance where
  | bucket (b : TokenBucket)
  | window (w : SlidingWindowLimiter)
deriving Repr, DecidableEq

structure RLStats where
  requests_allowed : ℕ
  requests_blocked : ℕ
  unique_ips : List String
  blocked_ips : List (String × ℕ)
deriving Repr, DecidableEq

/-- `self.stats['unique_ips'].add(client_id)` on a Python set. -/
def addUniqueIp (l : List String) (ip : String) : List String :=
  if ip ∈ l then l else l ++ [ip]

/-- `self.stats['blocked_ips'][client_id] += 1` on a `defaultdict(int)`. -/
def incBlocked : List (String × ℕ) → String → List (String × ℕ)
  | [], ip => [(ip, 1)]
  | (k, n) :: rest, ip =>
    if k = ip then (k, n + 1) :: rest else (k, n) :: incBlocked rest ip

/-- The `limit_type` field of the diagnostics dict returned by
`RateLimiterService.is_allowed`. -/
inductive LimitType where
  | globalLimit
  | endpointLimit
  | noneLimit
deriving Repr, DecidableEq

structure RateLimiterService where
  configs : List (String × LimiterConfig)
  instances : List ((String × String) × LimiterInstance)
  global_limiter : Option SlidingWindowLimiter
  stats : RLStats
deriving Repr, DecidableEq

/-- `RateLimiterService.__init__`. -/
def RateLimiterService.init : RateLimiterService :=
  { configs := [], instances := [], global_limiter := none
    stats := { requests_allowed := 0, requests_blocked := 0, unique_ips := [], blocked_ips := [] } }

def lookupConfig : List (String × LimiterConfig) → String → Option LimiterConfig
  | [], _ => none
  | (k, c) :: rest, e => if k = e then some c else lookupConfig rest e

def lookupInstance : List ((String × String) × LimiterInstance) → String × String →
    Option LimiterInstance
  | [], _ => none
  | (k, i) :: rest, p => if k = p then some i else lookupInstance rest p

def insertInstance : List ((String × String) × LimiterInstance) → String × String →
    LimiterInstance → List ((String × String) × LimiterInstance)
  | [], p, i => [(p, i)]
  | (k, i0) :: rest, p, i =>
    if k = p then (p, i) :: rest else (k, i0) :: insertInstance rest p i

/-- Creating the limiter instance for a `(client, endpoint)` pair on first
reference, from the endpoint's configuration (`time.time()` at bucket
construction is `now`). -/
def mkInstance (cfg : LimiterConfig) (now : ℚ) : LimiterInstance :=
  match cfg with
  | LimiterConfig.token_bucket cap rate => LimiterInstance.bucket (TokenBucket.init cap rate now)
  | LimiterConfig.sliding_window m w =>
    LimiterInstance.window { max_requests := m, window_seconds := w, requests := [] }

/-- `limiter.consume()` / `limiter.is_allowed()` on the chosen instance. -/
def runInstance (i : LimiterInstance) (now : ℚ) : Bool × LimiterInstance :=
  match i with
  | LimiterInstance.bucket b =>
    let r := b.consume 1 now
    (r.1, LimiterInstance.bucket r.2)
  | LimiterInstance.window w =>
    let r := w.is_allowed now
    (r.1, LimiterInstance.window r.2)

/-- The endpoint-specific half of `RateLimiterService.is_allowed`, entered
only after the global limiter (if any) has admitted the request. -/
def RateLimiterService.endpointCheck (s : RateLimiterService) (endpoint client_id : String)
    (now : ℚ) : (Bool × LimitType) × RateLimiterService :=
  match lookupConfig s.configs endpoint with
  | none =>
    ((true, LimitType.noneLimit),
     { s with stats := { s.stats with requests_allowed := s.stats.requests_allowed + 1 } })
  | some cfg =>
    let key := (endpoint, client_id)
    let s1 :=
      match lookupInstance s.instances key with
      | some _ => s
      | none => { s with instances := insertInstance s.instances key (mkInstance cfg now) }
    match lookupInstance s1.instances key with
    | none => ((true, LimitType.noneLimit), s1)
    | some inst =>
      let r := runInstance inst now
      let s2 := { s1 with instances := insertInstance s1.instances key r.2 }
      if r.1 then
        ((true, LimitType.noneLimit),
         { s2 with stats := { s2.stats with requests_allowed := s2.stats.requests_allowed + 1 } })
      else
        ((false, LimitType.endpointLimit),
         { s2 with stats :=
            { s2.stats with
              requests_blocked := s2.stats.requests_blocked + 1
              blocked_ips := incBlocked s2.stats.blocked_ips client_id } })

/-- `RateLimiterService.is_allowed(endpoint)`: record the client, check the
global limiter first (its `is_allowed` call mutates its own window either
way), and short-circuit on a global block; otherwise fall through to the
endpoint-specific check. -/
def RateLimiterService.is_allowed (s : RateLimiterService) (endpoint client_id : String)
    (now : ℚ) : (Bool × LimitType) × RateLimiterService :=
  let s0 := { s with stats := { s.stats with unique_ips := addUniqueIp s.stats.unique_ips client_id } }
  match s0.global_limiter with
  | none => s0.endpointCheck endpoint client_id now
  | some g =>
    let r := g.is_allowed now
    let s1 := { s0 with global_limiter := some r.2 }
    if r.1 then
      s1.endpointCheck endpoint client_id now
    else
      ((false, LimitType.globalLimit),
       { s1 with stats :=
          { s1.stats with
            requests_blocked := s1.stats.requests_blocked + 1
            blocked_ips := incBlocked s1.stats.blocked_ips client_id } })

/-! ## Retry executor (`ErrorHandler.with_retry` in error_handling.py)

A raised Python exception is a `PyExc`, carrying the identifier of its exact
runtime class; the class hierarchy itself is irrelevant to the code, which
tests `type(e) in reraise_exceptions` by exact class identity.  The wrapped
operation is `op : ℕ → Except PyExc A`, giving the outcome of its `i`-th
invocation (0-indexed).  `reraise_exceptions = None` and `= []` behave
identically (`reraise_exceptions and ...` is falsy for both, and membership
in `[]` is false), so the model uses a plain list.  The inter-attempt sleep
has no observable effect in this clock-free embedding; the delay formula is
kept as `retryDelay`. -/

structure PyExc where
  ty : ℕ
deriving Repr, DecidableEq

structure RetryConfig where
  max_attempts : ℕ
  base_delay : ℚ
  max_delay : ℚ
  exponential_base : ℚ
  jitter : Bool
deriving Repr, DecidableEq

/-- `min(base_delay * exponential_base ** attempt, max_delay)` (before the
optional random jitter factor). -/
def retryDelay (cfg : RetryConfig) (attempt : ℕ) : ℚ :=
  min (cfg.base_delay * cfg.exponential_base ^ attempt) cfg.max_delay

/-- How the `for attempt in range(max_attempts)` loop exits: an attempt
returned, an exception was re-raised immediately, or all attempts were
consumed (`last` is `last_exception`).  Each carries the number of
invocations of the wrapped function that were made. -/
inductive LoopExit (A : Type) where
  | success (a : A) (calls : ℕ)
  | reraise (e : PyExc) (calls : ℕ)
  | exhausted (last : Option PyExc) (calls : ℕ)
deriving Repr

/-- The attempt loop with `remaining` iterations left, about to run attempt
index `attempt`; `remaining = 0` after the final attempt breaks out.  The
`remaining' = 0` test is Python's `attempt == config.max_attempts - 1`. -/
def retryLoop {A : Type} (op : ℕ → Except PyExc A) (reraise : List ℕ) :
    ℕ → ℕ → Option PyExc → LoopExit A
  | 0, attempt, last => LoopExit.exhausted last attempt
  | remaining' + 1, attempt, _ =>
    match op attempt with
    | Except.ok a => LoopExit.success a (attempt + 1)
    | Except.error e =>
      if e.ty ∈ reraise then LoopExit.reraise e (attempt + 1)
      else if remaining' = 0 then LoopExit.exhausted (some e) (attempt + 1)
      else retryLoop op reraise remaining' (attempt + 1) (some e)

/-- The overall outcome of the decorated call: a value was returned (its
own, or the fallback), or an exception propagated.  `raisedNone` is the
degenerate `raise last_exception` with `last_exception = None`, reachable
only when `max_attempts = 0`. -/
inductive RetryOutcome (A : Type) where
  | ok (a : A)
  | raised (e : PyExc)
  | raisedNone
deriving Repr

/-- `ErrorHandler.with_retry(...)` applied to `op`: run the attempt loop,
then `return fallback_value` if one was configured (`is not None`), else
re-raise the last exception.  Returns the outcome paired with the number of
times `op` was invoked. -/
def withRetry {A : Type} (max_attempts : ℕ) (reraise : List ℕ) (fallback : Option A)
    (op : ℕ → Except PyExc A) : RetryOutcome A × ℕ :=
  match retryLoop op reraise max_attempts 0 none with
  | LoopExit.success a n => (RetryOutcome.ok a, n)
  | LoopExit.reraise e n => (RetryOutcome.raised e, n)
  | LoopExit.exhausted last n =>
    match fallback with
    | some fb => (RetryOutcome.ok fb, n)
    | none =>
      match last with
      | some e => (RetryOutcome.raised e, n)
      | none => (RetryOutcome.raisedNone, n)

/-! ## Dictionary lemmas -/

theorem lookupEntry_insertEntry_self {V : Type} (l : List (String × CacheEntry V))
    (k : String) (e : CacheEntry V) : lookupEntry (insertEntry l k e) k = some e := by
  induction l with
  | nil => simp [insertEntry, lookupEntry]
  | cons p rest ih =>
    by_cases h : p.1 = k
    · simp [insertEntry, lookupEntry, h]
    · simp [insertEntry, lookupEntry, h, ih]

theorem lookupEntry_insertEntry_ne {V : Type} (l : List (String × CacheEntry V))
    (k k' : String) (e : CacheEntry V) (h : k' ≠ k) :
    lookupEntry (insertEntry l k e) k' = lookupEntry l k' := by
  induction l with
  | nil => simp [insertEntry, lookupEntry, Ne.symm h]
  | cons p rest ih =>
    obtain ⟨k0, e0⟩ := p
    by_cases hp : k0 = k
    · subst hp
      simp [insertEntry, lookupEntry, Ne.symm h]
    · simp [insertEntry, lookupEntry, hp, ih]

theorem lookupEntry_mem {V : Type} {l : List (String × CacheEntry V)} {k : String}
    {e : CacheEntry V} (h : lookupEntry l k = some e) : (k, e) ∈ l := by
  induction l with
  | nil => simp [lookupEntry] at h
  | cons p rest ih =>
    obtain ⟨k0, e0⟩ := p
    by_cases hp : k0 = k
    · subst hp
      simp only [lookupEntry, if_pos] at h
      cases h
      exact List.mem_cons_self _ _
    · simp only [lookupEntry, hp, if_neg, not_false_iff] at h
      exact List.mem_cons_of_mem _ (ih h)

theorem hasKey_iff_mem {V : Type} (l : List (String × CacheEntry V)) (k : String) :
    hasKey l k = true ↔ k ∈ entryKeys l := by
  induction l with
  | nil => simp [hasKey, lookupEntry, entryKeys]
  | cons p rest ih =>
    by_cases hp : p.1 = k
    · simp [hasKey, lookupEntry, entryKeys, hp]
    · simpa [hasKey, lookupEntry, entryKeys, hp, Ne.symm hp] using ih

theorem entryKeys_insertEntry_of_hasKey {V : Type} (l : List (String × CacheEntry V))
    (k : String) (e : CacheEntry V) (h : hasKey l k = true) :
    entryKeys (insertEntry l k e) = entryKeys l := by
  induction l with
  | nil => simp [hasKey, lookupEntry] at h
  | cons p rest ih =>
    obtain ⟨k0, e0⟩ := p
    by_cases hp : k0 = k
    · subst hp
      simp [insertEntry, entryKeys]
    · have h' : hasKey rest k = true := by
        simpa [hasKey, lookupEntry, hp] using h
      have hk := ih h'
      simp only [insertEntry, hp, if_neg, not_false_iff, entryKeys, List.map_cons] at hk ⊢
      rw [hk]

theorem length_insertEntry_of_hasKey {V : Type} (l : List (String × CacheEntry V))
    (k : String) (e : CacheEntry V) (h : hasKey l k = true) :
    (insertEntry l k e).length = l.length := by
  have := entryKeys_insertEntry_of_hasKey l k e h
  have h1 : (entryKeys (insertEntry l k e)).length = (entryKeys l).length := by rw [this]
  simpa [entryKeys] using h1

theorem length_insertEntry_of_not_hasKey {V : Type} (l : List (String × CacheEntry V))
    (k : String) (e : CacheEntry V) (h : hasKey l k = false) :
    (insertEntry l k e).length = l.length + 1 := by
  induction l with
  | nil => simp [insertEntry]
  | cons p rest ih =>
    by_cases hp : p.1 = k
    · simp [hasKey, lookupEntry, hp] at h
    · have h' : hasKey rest k = false := by
        simpa [hasKey, lookupEntry, hp] using h
      simp [insertEntry, hp, ih h']

theorem length_removeKey_of_hasKey {V : Type} (l : List (String × CacheEntry V))
    (k : String) (h : hasKey l k = true) :
    (removeKey l k).length + 1 = l.length := by
  induction l with
  | nil => simp [hasKey, lookupEntry] at h
  | cons p rest ih =>
    by_cases hp : p.1 = k
    · simp [removeKey, hp]
    · have h' : hasKey rest k = true := by
        simpa [hasKey, lookupEntry, hp] using h
      simp [removeKey, hp, ih h']

theorem hasKey_removeKey_of_not {V : Type} (l : List (String × CacheEntry V))
    (k k0 : String) (h : hasKey l k = false) :
    hasKey (removeKey l k0) k = false := by
  induction l with
  | nil => simp [removeKey, hasKey, lookupEntry]
  | cons p rest ih =>
    by_cases hp : p.1 = k
    · simp [hasKey, lookupEntry, hp] at h
    · have h' : hasKey rest k = false := by
        simpa [hasKey, lookupEntry, hp] using h
      by_cases hp0 : p.1 = k0
      · simpa [removeKey, hp0] using h'
      · simpa [removeKey, hp0, hasKey, lookupEntry, hp] using ih h'

theorem lookupEntry_removeKey_self {V : Type} (l : List (String × CacheEntry V))
    (k : String) (h : (entryKeys l).Nodup) :
    lookupEntry (removeKey l k) k = none := by
  induction l with
  | nil => simp [removeKey, lookupEntry]
  | cons p rest ih =>
    obtain ⟨k0, e0⟩ := p
    have hcons : k0 ∉ entryKeys rest ∧ (entryKeys rest).Nodup := by
      have := h
      rw [entryKeys, List.map_cons, List.nodup_cons] at this
      exact this
    by_cases hp : k0 = k
    · subst hp
      rw [removeKey]
      simp only [if_pos]
      cases hk : lookupEntry rest k0 with
      | none => rfl
      | some e =>
        have : k0 ∈ entryKeys rest := by
          have hm := lookupEntry_mem hk
          exact List.mem_map_of_mem Prod.fst hm
        exact absurd this hcons.1
    · rw [removeKey]
      simp only [hp, if_neg, not_false_iff]
      simpa [lookupEntry, hp] using ih hcons.2

/-! ## Lemmas about the LRU fold -/

theorem lruStep_some {V : Type} (q p : String × CacheEntry V) :
    lruStep (some q) p = if p.2.last_accessed < q.2.last_accessed then some p else some q := rfl

theorem lruMin_go_mem_min {V : Type} (l : List (String × CacheEntry V)) :
    ∀ (p0 q : String × CacheEntry V),
      l.foldl lruStep (some p0) = some q →
      (q ∈ l ∨ q = p0) ∧ q.2.last_accessed ≤ p0.2.last_accessed ∧
        ∀ r ∈ l, q.2.last_accessed ≤ r.2.last_accessed := by
  induction l with
  | nil =>
    intro p0 q h
    simp only [List.foldl_nil, Option.some.injEq] at h
    subst h
    exact ⟨Or.inr rfl, le_refl _, by simp⟩
  | cons a rest ih =>
    intro p0 q h
    rw [List.foldl_cons, lruStep_some] at h
    by_cases hlt : a.2.last_accessed < p0.2.last_accessed
    · rw [if_pos hlt] at h
      obtain ⟨hmem, hle, hall⟩ := ih a q h
      refine ⟨?_, ?_, ?_⟩
      · rcases hmem with hm | hm
        · exact Or.inl (List.mem_cons_of_mem _ hm)
        · exact Or.inl (by simp [hm])
      · exact le_trans hle (le_of_lt hlt)
      · intro r hr
        rcases List.mem_cons.mp hr with hr | hr
        · subst hr; exact hle
        · exact hall r hr
    · rw [if_neg hlt] at h
      obtain ⟨hmem, hle, hall⟩ := ih p0 q h
      refine ⟨?_, hle, ?_⟩
      · rcases hmem with hm | hm
        · exact Or.inl (List.mem_cons_of_mem _ hm)
        · exact Or.inr hm
      · intro r hr
        rcases List.mem_cons.mp hr with hr | hr
        · subst hr
          exact le_trans hle (not_lt.mp hlt)
        · exact hall r hr

theorem lruMin_spec {V : Type} (l : List (String × CacheEntry V))
    (q : String × CacheEntry V) (h : lruMin l = some q) :
    q ∈ l ∧ ∀ r ∈ l, q.2.last_accessed ≤ r.2.last_accessed := by
  cases l with
  | nil => simp [lruMin] at h
  | cons a rest =>
    rw [lruMin, List.foldl_cons] at h
    obtain ⟨hmem, hle, hall⟩ := lruMin_go_mem_min rest a q h
    refine ⟨?_, ?_⟩
    · rcases hmem with hm | hm
      · exact List.mem_cons_of_mem _ hm
      · simp [hm]
    · intro r hr
      rcases List.mem_cons.mp hr with hr | hr
      · subst hr; exact hle
      · exact hall r hr

theorem lruMin_isSome_of_ne_nil {V : Type} (l : List (String × CacheEntry V))
    (h : l ≠ []) : ∃ q, lruMin l = some q := by
  cases l with
  | nil => exact absurd rfl h
  | cons a rest =>
    rw [lruMin, List.foldl_cons]
    clear h
    induction rest generalizing a with
    | nil => exact ⟨a, rfl⟩
    | cons b rest ih =>
      rw [List.foldl_cons]
      rw [show lruStep (lruStep none a) b = if b.2.last_accessed < a.2.last_accessed
            then some b else some a from rfl]
      by_cases hlt : b.2.last_accessed < a.2.last_accessed
      · rw [if_pos hlt]; exact ih b
      · rw [if_neg hlt]; exact ih a

/-! ## Lemmas about `set` -/

theorem set_entries_of_hasKey {V : Type} (s : CacheState V) (key : String) (data : Option V)
    (ttl : Option ℚ) (now : ℚ) (h : hasKey s.entries key = true) :
    (s.set key data ttl now).2.entries =
      insertEntry s.entries key (CacheEntry.init data (effTtl ttl s.default_ttl) now) := by
  rw [CacheState.set]
  simp [h]

theorem set_default_ttl {V : Type} (s : CacheState V) (key : String) (data : Option V)
    (ttl : Option ℚ) (now : ℚ) :
    (s.set key data ttl now).2.default_ttl = s.default_ttl := by
  rw [CacheState.set]
  by_cases h : s.max_entries ≤ (s.entries.length : ℤ) ∧ hasKey s.entries key = false
  · simp only [if_pos h]
    rw [CacheState.evictLru]
    cases lruMin s.entries <;> simp
  · simp only [if_neg h]

theorem set_max_entries {V : Type} (s : CacheState V) (key : String) (data : Option V)
    (ttl : Option ℚ) (now : ℚ) :
    (s.set key data ttl now).2.max_entries = s.max_entries := by
  rw [CacheState.set]
  by_cases h : s.max_entries ≤ (s.entries.length : ℤ) ∧ hasKey s.entries key = false
  · simp only [if_pos h]
    rw [CacheState.evictLru]
    cases lruMin s.entries <;> simp
  · simp only [if_neg h]

/-- After any `set`, the number of entries stays within `max_entries`,
provided `max_entries ≥ 1` and the bound held before the call. -/
theorem set_length_le {V : Type} (s : CacheState V) (key : String) (data : Option V)
    (ttl : Option ℚ) (now : ℚ) (hmax : 1 ≤ s.max_entries)
    (hlen : (s.entries.length : ℤ) ≤ s.max_entries) :
    (((s.set key data ttl now).2.entries.length : ℤ)) ≤ s.max_entries := by
  rw [CacheState.set]
  by_cases hk : hasKey s.entries key = true
  · have : ¬(s.max_entries ≤ (s.entries.length : ℤ) ∧ hasKey s.entries key = false) := by
      intro hc
      rw [hk] at hc
      exact absurd hc.2 (by simp)
    simp only [if_neg this]
    rw [length_insertEntry_of_hasKey _ _ _ hk]
    exact hlen
  · have hk' : hasKey s.entries key = false := by
      cases h : hasKey s.entries key
      · rfl
      · exact absurd h hk
    by_cases hfull : s.max_entries ≤ (s.entries.length : ℤ)
    · simp only [if_pos (And.intro hfull hk')]
      have hne : s.entries ≠ [] := by
        intro hnil
        rw [hnil] at hfull
        simp at hfull
        omega
      obtain ⟨q, hq⟩ := lruMin_isSome_of_ne_nil s.entries hne
      have hqmem := (lruMin_spec s.entries q hq).1
      have hqkey : hasKey s.entries q.1 = true := by
        rw [hasKey_iff_mem]
        exact List.mem_map_of_mem Prod.fst hqmem
      rw [CacheState.evictLru, hq]
      simp only
      have hkq : hasKey (removeKey s.entries q.1) key = false :=
        hasKey_removeKey_of_not s.entries key q.1 hk'
      rw [length_insertEntry_of_not_hasKey _ _ _ hkq]
      have hrem := length_removeKey_of_hasKey s.entries q.1 hqkey
      omega
    · simp only [hfull, false_and, if_neg, not_false_iff]
      rw [length_insertEntry_of_not_hasKey _ _ _ hk']
      push_cast
      omega

/-! ## Lemmas about the background refresh fold -/

theorem refreshStep_default_ttl {V E : Type} (funcs : String → Option (Except E (Option V)))
    (now : ℚ) (s : CacheState V) (k : String) :
    (refreshStep funcs now s k).default_ttl = s.default_ttl := by
  rw [refreshStep]
  cases h : funcs k with
  | none => rfl
  | some r =>
    cases r with
    | error e => rfl
    | ok fresh =>
      cases fresh with
      | none => rfl
      | some v => simp [set_default_ttl]

theorem refreshStep_keys {V E : Type} (funcs : String → Option (Except E (Option V)))
    (now : ℚ) (s : CacheState V) (j : String) (hj : j ∈ entryKeys s.entries) :
    entryKeys (refreshStep funcs now s j).entries = entryKeys s.entries := by
  rw [refreshStep]
  cases h : funcs j with
  | none => rfl
  | some r =>
    cases r with
    | error e => rfl
    | ok fresh =>
      cases fresh with
      | none => rfl
      | some v =>
        have hk : hasKey s.entries j = true := (hasKey_iff_mem _ _).mpr hj
        simp only
        rw [set_entries_of_hasKey _ _ _ _ _ hk]
        exact entryKeys_insertEntry_of_hasKey _ _ _ hk

theorem refreshStep_lookup_ne {V E : Type} (funcs : String → Option (Except E (Option V)))
    (now : ℚ) (s : CacheState V) (j k : String) (hj : j ∈ entryKeys s.entries)
    (hne : k ≠ j) :
    lookupEntry (refreshStep funcs now s j).entries k = lookupEntry s.entries k := by
  rw [refreshStep]
  cases h : funcs j with
  | none => rfl
  | some r =>
    cases r with
    | error e => rfl
    | ok fresh =>
      cases fresh with
      | none => rfl
      | some v =>
        have hk : hasKey s.entries j = true := (hasKey_iff_mem _ _).mpr hj
        simp only
        rw [set_entries_of_hasKey _ _ _ _ _ hk]
        exact lookupEntry_insertEntry_ne _ _ _ _ hne

theorem refreshStep_lookup_self {V E : Type} (funcs : String → Option (Except E (Option V)))
    (now : ℚ) (s : CacheState V) (k : String) (v : V)
    (hk : k ∈ entryKeys s.entries) (hf : funcs k = some (Except.ok (some v))) :
    lookupEntry (refreshStep funcs now s k).entries k =
      some (CacheEntry.init (some v) s.default_ttl now) := by
  rw [refreshStep, hf]
  have hk' : hasKey s.entries k = true := (hasKey_iff_mem _ _).mpr hk
  simp only
  rw [set_entries_of_hasKey _ _ _ _ _ hk']
  rw [lookupEntry_insertEntry_self]
  rfl

theorem foldRefresh_keys_ttl {V E : Type} (funcs : String → Option (Except E (Option V)))
    (now : ℚ) :
    ∀ (ks : List String) (s : CacheState V), (∀ j ∈ ks, j ∈ entryKeys s.entries) →
      entryKeys ((ks.foldl (refreshStep funcs now) s).entries) = entryKeys s.entries ∧
        (ks.foldl (refreshStep funcs now) s).default_ttl = s.default_ttl := by
  intro ks
  induction ks with
  | nil => intro s _; exact ⟨rfl, rfl⟩
  | cons j rest ih =>
    intro s hall
    rw [List.foldl_cons]
    have hj : j ∈ entryKeys s.entries := hall j (List.mem_cons_self _ _)
    have hkeys := refreshStep_keys funcs now s j hj
    have hrest : ∀ i ∈ rest, i ∈ entryKeys (refreshStep funcs now s j).entries := by
      intro i hi
      rw [hkeys]
      exact hall i (List.mem_cons_of_mem _ hi)
    obtain ⟨h1, h2⟩ := ih (refreshStep funcs now s j) hrest
    exact ⟨by rw [h1, hkeys], by rw [h2, refreshStep_default_ttl]⟩

theorem foldRefresh_lookup_not_mem {V E : Type} (funcs : String → Option (Except E (Option V)))
    (now : ℚ) :
    ∀ (ks : List String) (s : CacheState V) (k : String), k ∉ ks →
      (∀ j ∈ ks, j ∈ entryKeys s.entries) →
      lookupEntry ((ks.foldl (refreshStep funcs now) s).entries) k =
        lookupEntry s.entries k := by
  intro ks
  induction ks with
  | nil => intro s k _ _; rfl
  | cons j rest ih =>
    intro s k hk hall
    rw [List.foldl_cons]
    have hj : j ∈ entryKeys s.entries := hall j (List.mem_cons_self _ _)
    have hkeys := refreshStep_keys funcs now s j hj
    have hne : k ≠ j := fun h => hk (h ▸ List.mem_cons_self _ _)
    have hrest : ∀ i ∈ rest, i ∈ entryKeys (refreshStep funcs now s j).entries := by
      intro i hi
      rw [hkeys]
      exact hall i (List.mem_cons_of_mem _ hi)
    rw [ih (refreshStep funcs now s j) k (fun h => hk (List.mem_cons_of_mem _ h)) hrest]
    exact refreshStep_lookup_ne funcs now s j k hj hne

/-! ## Lemmas about the token bucket -/

theorem consume_preserves (b : TokenBucket) (n now : ℚ) :
    (b.consume n now).2.capacity = b.capacity ∧
      (b.consume n now).2.refill_rate = b.refill_rate ∧
      (b.consume n now).2.last_refill = now := by
  simp only [TokenBucket.consume]
  by_cases h : n ≤ min b.capacity (b.tokens + (now - b.last_refill) * b.refill_rate)
  · rw [if_pos h]
    exact ⟨rfl, rfl, rfl⟩
  · rw [if_neg h]
    exact ⟨rfl, rfl, rfl⟩

/-- Single-step preservation of `0 ≤ tokens ≤ capacity` under a
non-negative request and a forward-moving clock. -/
theorem consume_inv (b : TokenBucket) (n now : ℚ)
    (hcap : 0 ≤ b.capacity) (hrate : 0 ≤ b.refill_rate)
    (hlo : 0 ≤ b.tokens) (hhi : b.tokens ≤ b.capacity)
    (hn : 0 ≤ n) (htime : b.last_refill ≤ now) :
    0 ≤ (b.consume n now).2.tokens ∧ (b.consume n now).2.tokens ≤ b.capacity := by
  have hrefill : 0 ≤ (now - b.last_refill) * b.refill_rate :=
    mul_nonneg (by linarith) hrate
  have h0 : 0 ≤ min b.capacity (b.tokens + (now - b.last_refill) * b.refill_rate) :=
    le_min hcap (by linarith)
  have h1 : min b.capacity (b.tokens + (now - b.last_refill) * b.refill_rate) ≤ b.capacity :=
    min_le_left _ _
  simp only [TokenBucket.consume]
  by_cases h : n ≤ min b.capacity (b.tokens + (now - b.last_refill) * b.refill_rate)
  · rw [if_pos h]
    constructor
    · show (0 : ℚ) ≤ min b.capacity (b.tokens + (now - b.last_refill) * b.refill_rate) - n
      linarith
    · show min b.capacity (b.tokens + (now - b.last_refill) * b.refill_rate) - n ≤ b.capacity
      linarith
  · rw [if_neg h]
    exact ⟨h0, h1⟩

/-- The invariant holds at every state along a sequence of `consume` calls
whose request sizes are non-negative and whose clock readings never run
backwards. -/
theorem runConsumes_inv (calls : List (ℚ × ℚ)) :
    ∀ (b : TokenBucket), 0 ≤ b.capacity → 0 ≤ b.refill_rate →
      0 ≤ b.tokens → b.tokens ≤ b.capacity →
      (∀ p ∈ calls, 0 ≤ p.1) → timesOk b.last_refill calls = true →
      ∀ b' ∈ b.runConsumes calls, 0 ≤ b'.tokens ∧ b'.tokens ≤ b'.capacity := by
  induction calls with
  | nil =>
    intro b _ _ _ _ _ _ b' hb'
    simp [TokenBucket.runConsumes] at hb'
  | cons c rest ih =>
    intro b hcap hrate hlo hhi hns htimes b' hb'
    obtain ⟨n, t⟩ := c
    rw [timesOk] at htimes
    have ht : b.last_refill ≤ t := by
      have := (Bool.and_eq_true _ _).mp htimes
      exact of_decide_eq_true this.1
    have htrest : timesOk t rest = true := ((Bool.and_eq_true _ _).mp htimes).2
    have hn : 0 ≤ n := hns (n, t) (List.mem_cons_self _ _)
    have hinv := consume_inv b n t hcap hrate hlo hhi hn ht
    obtain ⟨hc, hr, hl⟩ := consume_preserves b n t
    rw [TokenBucket.runConsumes] at hb'
    rcases List.mem_cons.mp hb' with hb' | hb'
    · subst hb'
      exact ⟨hinv.1, by rw [hc]; exact hinv.2⟩
    · exact ih (b.consume n t).2 (by rw [hc]; exact hcap) (by rw [hr]; exact hrate)
        hinv.1 (by rw [hc]; exact hinv.2)
        (fun p hp => hns p (List.mem_cons_of_mem _ hp))
        (by rw [hl]; exact htrest) b' hb'

/-! ## Lemmas about the sliding window -/

theorem dropWhile_eq_self_of_none {α : Type} (p : α → Bool) (l : List α)
    (h : ∀ x ∈ l, p x = false) : l.dropWhile p = l := by
  cases l with
  | nil => rfl
  | cons a rest =>
    rw [List.dropWhile_cons, h a (List.mem_cons_self _ _)]
    simp

theorem dropWhile_eq_nil_of_all {α : Type} (p : α → Bool) (l : List α)
    (h : ∀ x ∈ l, p x = true) : l.dropWhile p = [] := by
  induction l with
  | nil => rfl
  | cons a rest ih =>
    rw [List.dropWhile_cons, h a (List.mem_cons_self _ _)]
    simp only [if_pos]
    exact ih (fun x hx => h x (List.mem_cons_of_mem _ hx))

/-- A run of `is_allowed` calls during which nothing is ever evicted and the
admission count never reaches the limit: every call is admitted and the
queue accumulates exactly the call times. -/
theorem swl_run_all_true (N : ℕ) (w : ℚ) :
    ∀ (ts q : List ℚ),
      q.length + ts.length ≤ N →
      (∀ x ∈ q, ∀ t ∈ ts, ¬(x ≤ t - w)) →
      (∀ t ∈ ts, ∀ u ∈ ts, ¬(t ≤ u - w)) →
      SlidingWindowLimiter.callResults ⟨N, w, q⟩ ts = List.replicate ts.length true ∧
        SlidingWindowLimiter.applyCalls ⟨N, w, q⟩ ts = ⟨N, w, q ++ ts⟩ := by
  intro ts
  induction ts with
  | nil =>
    intro q _ _ _
    exact ⟨rfl, by rw [SlidingWindowLimiter.applyCalls]; simp⟩
  | cons t rest ih =>
    intro q hlen hq hts
    have hdrop : q.dropWhile (fun x => decide (x ≤ t - w)) = q := by
      apply dropWhile_eq_self_of_none
      intro x hx
      exact decide_eq_false (hq x hx t (List.mem_cons_self _ _))
    have hlen2 : q.length + (rest.length + 1) ≤ N := by simpa using hlen
    have hstep : SlidingWindowLimiter.is_allowed ⟨N, w, q⟩ t = (true, ⟨N, w, q ++ [t]⟩) := by
      rw [SlidingWindowLimiter.is_allowed]
      simp only [hdrop]
      rw [if_pos (by omega)]
    have hq' : ∀ x ∈ q ++ [t], ∀ u ∈ rest, ¬(x ≤ u - w) := by
      intro x hx u hu
      rcases List.mem_append.mp hx with hx | hx
      · exact hq x hx u (List.mem_cons_of_mem _ hu)
      · rcases List.mem_singleton.mp hx with rfl
        exact hts x (List.mem_cons_self _ _) u (List.mem_cons_of_mem _ hu)
    have hts' : ∀ u ∈ rest, ∀ u' ∈ rest, ¬(u ≤ u' - w) := by
      intro u hu u' hu'
      exact hts u (List.mem_cons_of_mem _ hu) u' (List.mem_cons_of_mem _ hu')
    have hlen' : (q ++ [t]).length + rest.length ≤ N := by
      simp only [List.length_append, List.length_cons, List.length_nil] at hlen ⊢
      omega
    obtain ⟨h1, h2⟩ := ih (q ++ [t]) hlen' hq' hts'
    constructor
    · rw [SlidingWindowLimiter.callResults]
      simp only [hstep, h1, List.length_cons, List.replicate_succ]
    · rw [SlidingWindowLimiter.applyCalls]
      simp only [hstep, h2, List.append_assoc, List.singleton_append]

/-! ## Lemmas about the retry loop -/

theorem retryLoop_always_error {A : Type} (op : ℕ → Except PyExc A) (reraise : List ℕ)
    (es : ℕ → PyExc) (hop : ∀ i, op i = Except.error (es i))
    (hmem : ∀ i, (es i).ty ∉ reraise) :
    ∀ (r a : ℕ) (last : Option PyExc),
      retryLoop op reraise (r + 1) a last = LoopExit.exhausted (some (es (a + r))) (a + r + 1) := by
  intro r
  induction r with
  | zero =>
    intro a last
    rw [retryLoop, hop a]
    simp [hmem a]
  | succ r ih =>
    intro a last
    rw [retryLoop, hop a]
    simp only [eq_false (hmem a), if_false, if_neg (Nat.succ_ne_zero r)]
    rw [ih (a + 1)]
    have harr : a + 1 + r = a + (r + 1) := by omega
    rw [harr]

theorem retryLoop_reraise_first {A : Type} (op : ℕ → Except PyExc A) (reraise : List ℕ)
    (r a : ℕ) (last : Option PyExc) (e : PyExc)
    (hop : op a = Except.error e) (hmem : e.ty ∈ reraise) :
    retryLoop op reraise (r + 1) a last = LoopExit.reraise e (a + 1) := by
  rw [retryLoop, hop]
  simp only
  rw [if_pos (by simpa using hmem)]

theorem retryLoop_success_at {A : Type} (op : ℕ → Except PyExc A) (reraise : List ℕ)
    (es : ℕ → PyExc) (v : A) :
    ∀ (j r a : ℕ) (last : Option PyExc),
      (∀ i, i < j → op (a + i) = Except.error (es (a + i)) ∧ (es (a + i)).ty ∉ reraise) →
      op (a + j) = Except.ok v → j < r →
      retryLoop op reraise r a last = LoopExit.success v (a + j + 1) := by
  intro j
  induction j with
  | zero =>
    intro r a last _ hok hr
    obtain ⟨r', rfl⟩ : ∃ r', r = r' + 1 := ⟨r - 1, by omega⟩
    rw [retryLoop]
    simp only [Nat.add_zero] at hok
    rw [hok]
  | succ j ih =>
    intro r a last hfail hok hr
    obtain ⟨r', rfl⟩ : ∃ r', r = r' + 1 := ⟨r - 1, by omega⟩
    have hf0 := hfail 0 (Nat.succ_pos j)
    simp only [Nat.add_zero] at hf0
    rw [retryLoop, hf0.1]
    simp only
    rw [if_neg (by simpa using hf0.2)]
    have hr' : j < r' := by omega
    have hr'0 : r' ≠ 0 := by omega
    rw [if_neg hr'0]
    have hfail' : ∀ i, i < j → op (a + 1 + i) = Except.error (es (a + 1 + i)) ∧
        (es (a + 1 + i)).ty ∉ reraise := by
      intro i hi
      have := hfail (i + 1) (by omega)
      have harr : a + (i + 1) = a + 1 + i := by omega
      rw [harr] at this
      exact this
    have hok' : op (a + 1 + j) = Except.ok v := by
      have harr : a + 1 + j = a + (j + 1) := by omega
      rw [harr]
      exact hok
    rw [ih r' (a + 1) (some (es a)) hfail' hok' hr']
    have : a + 1 + j = a + (j + 1) := by omega
    rw [this]

theorem lookupEntry_set_self {V : Type} (s : CacheState V) (key : String) (data : Option V)
    (ttl : Option ℚ) (now : ℚ) :
    lookupEntry (s.set key data ttl now).2.entries key =
      some (CacheEntry.init data (effTtl ttl s.default_ttl) now) := by
  rw [CacheState.set]
  exact lookupEntry_insertEntry_self _ _ _

theorem set_entries_of_evicting {V : Type} (s : CacheState V) (key : String)
    (data : Option V) (ttl : Option ℚ) (now : ℚ) (q : String × CacheEntry V)
    (hk : hasKey s.entries key = false)
    (hfull : s.max_entries ≤ (s.entries.length : ℤ))
    (hq : lruMin s.entries = some q) :
    (s.set key data ttl now).2.entries =
      insertEntry (removeKey s.entries q.1) key
        (CacheEntry.init data (effTtl ttl s.default_ttl) now) ∧
      (s.set key data ttl now).2.evictions = s.evictions + 1 := by
  rw [CacheState.set]
  simp only [if_pos (And.intro hfull hk)]
  rw [CacheState.evictLru, hq]
  exact ⟨rfl, rfl⟩

/-- Along a sequence of `set` calls the entry count stays within the
(unchanged) capacity bound, provided it held initially and the bound is at
least one. -/
theorem runSets_inv {V : Type} (calls : List (SetCall V)) :
    ∀ (s : CacheState V), 1 ≤ s.max_entries → (s.entries.length : ℤ) ≤ s.max_entries →
      ∀ s' ∈ s.runSets calls,
        (s'.entries.length : ℤ) ≤ s.max_entries ∧ s'.max_entries = s.max_entries := by
  induction calls with
  | nil =>
    intro s _ _ s' hs'
    simp [CacheState.runSets] at hs'
  | cons c rest ih =>
    intro s hmax hlen s' hs'
    have hstep := set_length_le s c.key c.data c.ttl c.now hmax hlen
    have hmax1 := set_max_entries s c.key c.data c.ttl c.now
    rw [CacheState.runSets] at hs'
    rcases List.mem_cons.mp hs' with hs' | hs'
    · subst hs'
      exact ⟨hstep, hmax1⟩
    · have := ih (s.set c.key c.data c.ttl c.now).2 (by rw [hmax1]; exact hmax)
        (by rw [hmax1]; exact hstep) s' hs'
      rw [hmax1] at this
      exact this

theorem callResults_append (ts1 : List ℚ) :
    ∀ (l : SlidingWindowLimiter) (ts2 : List ℚ),
      l.callResults (ts1 ++ ts2) = l.callResults ts1 ++ (l.applyCalls ts1).callResults ts2 := by
  induction ts1 with
  | nil =>
    intro l ts2
    rw [SlidingWindowLimiter.applyCalls]
    simp [SlidingWindowLimiter.callResults]
  | cons t rest ih =>
    intro l ts2
    rw [List.cons_append, SlidingWindowLimiter.callResults, SlidingWindowLimiter.callResults,
      SlidingWindowLimiter.applyCalls]
    rw [ih]
    simp

theorem applyCalls_append (ts1 : List ℚ) :
    ∀ (l : SlidingWindowLimiter) (ts2 : List ℚ),
      l.applyCalls (ts1 ++ ts2) = (l.applyCalls ts1).applyCalls ts2 := by
  induction ts1 with
  | nil =>
    intro l ts2
    rw [SlidingWindowLimiter.applyCalls]
    simp
  | cons t rest ih =>
    intro l ts2
    rw [List.cons_append, SlidingWindowLimiter.applyCalls, SlidingWindowLimiter.applyCalls]
    exact ih _ _

theorem retryLoop_reraise_mem {A : Type} (op : ℕ → Except PyExc A) (reraise : List ℕ) :
    ∀ (r a : ℕ) (last : Option PyExc) (e : PyExc) (n : ℕ),
      retryLoop op reraise r a last = LoopExit.reraise e n → e.ty ∈ reraise := by
  intro r
  induction r with
  | zero =>
    intro a last e n h
    rw [retryLoop] at h
    cases h
  | succ r ih =>
    intro a last e n h
    rw [retryLoop] at h
    cases hop : op a with
    | ok v =>
      rw [hop] at h
      cases h
    | error e' =>
      rw [hop] at h
      simp only at h
      by_cases hm : e'.ty ∈ reraise
      · rw [if_pos (by simpa using hm)] at h
        cases h
        exact hm
      · rw [if_neg (by simpa using hm)] at h
        by_cases hr : r = 0
        · rw [if_pos hr] at h
          cases h
        · rw [if_neg hr] at h
          exact ih (a + 1) (some e') e n h

/-! ## Claim theorems -/

/-- C8: a cache entry whose age exceeds its `ttl_seconds` is absent on the
next `get` of that key even if never explicitly invalidated: the `get`
removes the expired entry, increments `stats.misses`, and returns absence. -/
theorem C8_lazy_expiry {V : Type} (s : CacheState V) (k : String) (entry : CacheEntry V)
    (now : ℚ) (hnodup : (entryKeys s.entries).Nodup)
    (hk : lookupEntry s.entries k = some entry)
    (hexp : entry.ttl_seconds < now - entry.created_at) :
    (s.get k now).1 = none ∧
      lookupEntry (s.get k now).2.entries k = none ∧
      (s.get k now).2.misses = s.misses + 1 ∧
      (s.get k now).2.hits = s.hits := by
  have hexpired : entry.is_expired now = true := by
    rw [CacheEntry.is_expired]
    exact decide_eq_true hexp
  have hget : s.get k now =
      (none, { s with entries := removeKey s.entries k, misses := s.misses + 1 }) := by
    rw [CacheState.get, hk]
    simp [hexpired]
  rw [hget]
  exact ⟨rfl, lookupEntry_removeKey_self s.entries k hnodup, rfl, rfl⟩

/-- C8 witness: a concrete expired entry is deleted and counted as a miss. -/
theorem C8_lazy_expiry_witness :
    ((⟨[("k", ⟨some 0, 0, 100, 5, 0⟩)], 300, 100, 0, 0, 0, 0, 0⟩ : CacheState ℕ).get
        "k" 200).1 = none ∧
      lookupEntry ((⟨[("k", ⟨some 0, 0, 100, 5, 0⟩)], 300, 100, 0, 0, 0, 0, 0⟩ :
          CacheState ℕ).get "k" 200).2.entries "k" = none ∧
      ((⟨[("k", ⟨some 0, 0, 100, 5, 0⟩)], 300, 100, 0, 0, 0, 0, 0⟩ : CacheState ℕ).get
          "k" 200).2.misses = 0 + 1 ∧
      ((⟨[("k", ⟨some 0, 0, 100, 5, 0⟩)], 300, 100, 0, 0, 0, 0, 0⟩ : CacheState ℕ).get
          "k" 200).2.hits = 0 :=
  C8_lazy_expiry (⟨[("k", ⟨some 0, 0, 100, 5, 0⟩)], 300, 100, 0, 0, 0, 0, 0⟩ : CacheState ℕ)
    "k" ⟨some 0, 0, 100, 5, 0⟩ 200 (by decide) (by decide) (by norm_num)

/-- C9: a `set(key, v, ttl)` followed before expiry by `get(key)` returns
exactly the stored value; the read path mutates only the entry's access
statistics (`access_count`, `last_accessed`), never the stored value, and
touches no other entry. -/
theorem C9_set_then_get {V : Type} (s : CacheState V) (k : String) (v : Option V)
    (ttl : Option ℚ) (t1 t2 : ℚ)
    (hfresh : t2 - t1 ≤ effTtl ttl s.default_ttl) :
    ((s.set k v ttl t1).2.get k t2).1 = v ∧
      lookupEntry ((s.set k v ttl t1).2.get k t2).2.entries k =
        some { data := v, created_at := t1, ttl_seconds := effTtl ttl s.default_ttl,
               access_count := 1, last_accessed := t2 } ∧
      (∀ k', k' ≠ k →
        lookupEntry ((s.set k v ttl t1).2.get k t2).2.entries k' =
          lookupEntry (s.set k v ttl t1).2.entries k') ∧
      ((s.set k v ttl t1).2.get k t2).2.hits = (s.set k v ttl t1).2.hits + 1 ∧
      ((s.set k v ttl t1).2.get k t2).2.misses = (s.set k v ttl t1).2.misses := by
  have hself := lookupEntry_set_self s k v ttl t1
  have hnotexp :
      CacheEntry.is_expired
        { data := v, created_at := t1, ttl_seconds := effTtl ttl s.default_ttl,
          access_count := 0, last_accessed := t1 } t2 = false := by
    rw [CacheEntry.is_expired]
    simp only [decide_eq_false_iff_not, not_lt]
    linarith
  have hget : (s.set k v ttl t1).2.get k t2 =
      (v, { (s.set k v ttl t1).2 with
            entries := insertEntry (s.set k v ttl t1).2.entries k
              { data := v, created_at := t1, ttl_seconds := effTtl ttl s.default_ttl,
                access_count := 1, last_accessed := t2 }
            hits := (s.set k v ttl t1).2.hits + 1 }) := by
    rw [CacheState.get, hself]
    simp [hnotexp, CacheEntry.access, CacheEntry.init]
  rw [hget]
  refine ⟨rfl, ?_, ?_, rfl, rfl⟩
  · rw [lookupEntry_insertEntry_self]
  · intro k' hk'
    exact lookupEntry_insertEntry_ne _ _ _ _ hk'

/-- C9 witness: a concrete round trip `set("k", 42, ttl 10, t=0)` then
`get("k", t=5)` returns `42` with only the access counters updated. -/
theorem C9_set_then_get_witness :
    (((CacheState.init ℕ 300 100).set "k" (some 42) (some 10) 0).2.get "k" 5).1 = some 42 ∧
      lookupEntry (((CacheState.init ℕ 300 100).set "k" (some 42) (some 10) 0).2.get
          "k" 5).2.entries "k" =
        some { data := some 42, created_at := 0,
               ttl_seconds := effTtl (some 10) (CacheState.init ℕ 300 100).default_ttl,
               access_count := 1, last_accessed := 5 } ∧
      (∀ k', k' ≠ "k" →
        lookupEntry (((CacheState.init ℕ 300 100).set "k" (some 42) (some 10) 0).2.get
            "k" 5).2.entries k' =
          lookupEntry ((CacheState.init ℕ 300 100).set "k" (some 42) (some 10) 0).2.entries k') ∧
      (((CacheState.init ℕ 300 100).set "k" (some 42) (some 10) 0).2.get "k" 5).2.hits =
        ((CacheState.init ℕ 300 100).set "k" (some 42) (some 10) 0).2.hits + 1 ∧
      (((CacheState.init ℕ 300 100).set "k" (some 42) (some 10) 0).2.get "k" 5).2.misses =
        ((CacheState.init ℕ 300 100).set "k" (some 42) (some 10) 0).2.misses :=
  C9_set_then_get (CacheState.init ℕ 300 100) "k" (some 42) (some 10) 0 5 (by norm_num [effTtl])

/-- C1 counterexample: on a cache miss with a fetch function that raises,
`get_or_set` does not propagate the error — it returns `Except.ok none`
(the Python code catches the exception and returns `None`), refuting the
claim that the error reaches the caller. `stats.errors` is incremented. -/
theorem C1_counterexample :
    ((CacheState.init ℕ 300 100).get_or_set (E := ℕ) "k" (Except.error 7) none 0 0).1 =
        Except.ok none ∧
      ((CacheState.init ℕ 300 100).get_or_set (E := ℕ) "k" (Except.error 7) none 0 0).1 ≠
        Except.error 7 ∧
      ((CacheState.init ℕ 300 100).get_or_set (E := ℕ) "k" (Except.error 7) none 0 0).2.errors
        = 1 := by
  refine ⟨rfl, ?_, rfl⟩
  intro h
  have h2 : (Except.ok none : Except ℕ (Option ℕ)) = Except.error 7 := h
  exact Except.noConfusion h2

/-- C1 (amended): when a `get_or_set` call misses the cache (its inner `get`
returns `None`) and the fetch function raises, the call increments
`stats.errors` by one and returns `None` to its immediate caller — the
error is swallowed, not propagated, and no substitute other than `None` is
produced. -/
theorem C1_amended_getOrSet_swallows_fetch_error {V E : Type} (s : CacheState V)
    (k : String) (e : E) (ttl : Option ℚ) (t1 t2 : ℚ)
    (hmiss : (s.get k t1).1 = none) :
    s.get_or_set k (Except.error e) ttl t1 t2 =
      (Except.ok none, { (s.get k t1).2 with errors := (s.get k t1).2.errors + 1 }) := by
  rw [CacheState.get_or_set]
  simp only [hmiss]

/-- C1 witness: the amended statement at a concrete empty cache. -/
theorem C1_amended_witness :
    (CacheState.init ℕ 300 100).get_or_set (E := ℕ) "k" (Except.error 7) none 0 0 =
      (Except.ok none,
       { ((CacheState.init ℕ 300 100).get "k" 0).2 with
         errors := ((CacheState.init ℕ 300 100).get "k" 0).2.errors + 1 }) :=
  C1_amended_getOrSet_swallows_fetch_error (CacheState.init ℕ 300 100) "k" 7 none 0 0
    (by decide)

/-- C2 counterexample: a stale entry with original TTL `100` and
`access_count = 5` is refreshed to a fresh value, but the refreshed entry
carries the store's default TTL `300` (the original TTL is not preserved)
and `access_count = 0` (the counters are not preserved), refuting the
claim's frame conditions.  The refresh happens through a plain
`set(key, fresh_data)` call, which builds a brand-new `CacheEntry` with the
default TTL. -/
theorem C2_counterexample :
    lookupEntry
        ((⟨[("k", ⟨some 0, 0, 100, 5, 0⟩)], 300, 100, 0, 0, 0, 0, 0⟩ :
            CacheState ℕ).refreshStaleEntries (E := ℕ)
          (fun k => if k = "k" then some (Except.ok (some 1)) else none) 70).entries "k" =
      some ⟨some 1, 70, 300, 0, 70⟩ ∧
      Option.map CacheEntry.ttl_seconds
        (lookupEntry
          ((⟨[("k", ⟨some 0, 0, 100, 5, 0⟩)], 300, 100, 0, 0, 0, 0, 0⟩ :
              CacheState ℕ).refreshStaleEntries (E := ℕ)
            (fun k => if k = "k" then some (Except.ok (some 1)) else none) 70).entries "k")
        ≠ some 100 ∧
      Option.map CacheEntry.access_count
        (lookupEntry
          ((⟨[("k", ⟨some 0, 0, 100, 5, 0⟩)], 300, 100, 0, 0, 0, 0, 0⟩ :
              CacheState ℕ).refreshStaleEntries (E := ℕ)
            (fun k => if k = "k" then some (Except.ok (some 1)) else none) 70).entries "k")
        ≠ some 5 := by
  have hsk : staleKeys (E := ℕ)
      (⟨[("k", ⟨some 0, 0, 100, 5, 0⟩)], 300, 100, 0, 0, 0, 0, 0⟩ : CacheState ℕ)
      (fun k => if k = "k" then some (Except.ok (some 1)) else none) 70 = ["k"] := by
    simp [staleKeys, CacheEntry.is_stale, CacheEntry.is_expired]
    norm_num
  have hres : ((⟨[("k", ⟨some 0, 0, 100, 5, 0⟩)], 300, 100, 0, 0, 0, 0, 0⟩ :
        CacheState ℕ).refreshStaleEntries (E := ℕ)
      (fun k => if k = "k" then some (Except.ok (some 1)) else none) 70).entries =
      [("k", ⟨some 1, 70, 300, 0, 70⟩)] := by
    rw [CacheState.refreshStaleEntries, hsk]
    rfl
  rw [hres]
  refine ⟨rfl, by decide, by decide⟩

/-- C2 (amended): for every stale cache entry with a registered refresh
function whose refresh call returns a non-null value, the background
refresh replaces the entry with a brand-new one: the new value is stored
and `created_at` is reset to now, but `ttl_seconds` becomes the store's
`default_ttl` (the entry's original TTL is not preserved) and
`access_count`/`last_accessed` restart at `0`/now (the counters are not
preserved). -/
theorem C2_amended_refresh_resets_entry {V E : Type} (s : CacheState V)
    (funcs : String → Option (Except E (Option V))) (now : ℚ) (k : String)
    (entry : CacheEntry V) (v : V)
    (hnodup : (entryKeys s.entries).Nodup)
    (hk : lookupEntry s.entries k = some entry)
    (hstale : entry.is_stale 60 now = true)
    (hf : funcs k = some (Except.ok (some v))) :
    lookupEntry (s.refreshStaleEntries funcs now).entries k =
      some { data := some v, created_at := now, ttl_seconds := s.default_ttl,
             access_count := 0, last_accessed := now } := by
  have hmemk : (k, entry) ∈ s.entries := lookupEntry_mem hk
  have hsub : List.Sublist (staleKeys s funcs now) (entryKeys s.entries) := by
    rw [staleKeys, entryKeys]
    exact (List.filter_sublist _).map Prod.fst
  have hstnodup : (staleKeys s funcs now).Nodup := hnodup.sublist hsub
  have hstmem : ∀ j ∈ staleKeys s funcs now, j ∈ entryKeys s.entries :=
    fun j hj => hsub.subset hj
  have hkin : k ∈ staleKeys s funcs now := by
    rw [staleKeys]
    refine List.mem_map_of_mem Prod.fst (List.mem_filter.mpr ⟨hmemk, ?_⟩)
    rw [hstale, hf]
    rfl
  obtain ⟨l1, l2, hsplit⟩ := List.append_of_mem hkin
  have hnodup12 : (l1 ++ k :: l2).Nodup := hsplit ▸ hstnodup
  have hknotl1 : k ∉ l1 := by
    intro hc
    exact (List.disjoint_of_nodup_append hnodup12) hc (List.mem_cons_self _ _)
  have hknotl2 : k ∉ l2 := by
    have := (List.nodup_append.mp hnodup12).2.1
    exact (List.nodup_cons.mp this).1
  have hmem1 : ∀ j ∈ l1, j ∈ entryKeys s.entries := by
    intro j hj
    exact hstmem j (hsplit ▸ List.mem_append_left _ hj)
  have hmem2 : ∀ j ∈ l2, j ∈ entryKeys s.entries := by
    intro j hj
    exact hstmem j (hsplit ▸ List.mem_append_right _ (List.mem_cons_of_mem _ hj))
  rw [CacheState.refreshStaleEntries, hsplit, List.foldl_append, List.foldl_cons]
  obtain ⟨hkeys1, httl1⟩ := foldRefresh_keys_ttl funcs now l1 s hmem1
  have hk1 : k ∈ entryKeys (l1.foldl (refreshStep funcs now) s).entries := by
    rw [hkeys1]
    exact List.mem_map_of_mem Prod.fst hmemk
  have hkeysStep :=
    refreshStep_keys funcs now (l1.foldl (refreshStep funcs now) s) k hk1
  have hmem2' : ∀ j ∈ l2,
      j ∈ entryKeys (refreshStep funcs now (l1.foldl (refreshStep funcs now) s) k).entries := by
    intro j hj
    rw [hkeysStep, hkeys1]
    exact hmem2 j hj
  rw [foldRefresh_lookup_not_mem funcs now l2 _ k hknotl2 hmem2']
  rw [refreshStep_lookup_self funcs now _ k v hk1 hf]
  rw [httl1]
  rfl

/-- C2 witness: the amended statement at the counterexample's concrete
store, showing the refreshed entry is exactly the reset one. -/
theorem C2_amended_witness :
    lookupEntry
        ((⟨[("k", ⟨some 0, 0, 100, 5, 0⟩)], 300, 100, 0, 0, 0, 0, 0⟩ :
            CacheState ℕ).refreshStaleEntries (E := ℕ)
          (fun k => if k = "k" then some (Except.ok (some 1)) else none) 70).entries "k" =
      some { data := some 1, created_at := 70, ttl_seconds := 300,
             access_count := 0, last_accessed := 70 } :=
  C2_amended_refresh_resets_entry
    (⟨[("k", ⟨some 0, 0, 100, 5, 0⟩)], 300, 100, 0, 0, 0, 0, 0⟩ : CacheState ℕ)
    (E := ℕ) (fun k => if k = "k" then some (Except.ok (some 1)) else none) 70 "k"
    ⟨some 0, 0, 100, 5, 0⟩ 1 (by decide) (by decide)
    (by simp [CacheEntry.is_stale, CacheEntry.is_expired]; norm_num) rfl

/-- C3 counterexample: with `max_entries = 0` a single `set` on an empty
cache stores one entry (`_evict_lru` is a no-op on an empty dict, then the
new entry is inserted), so `|entries| ≤ maxEntries` fails after the call
returns — the claimed invariant does not hold for every capacity. -/
theorem C3_counterexample :
    ¬ ((((CacheState.init ℕ 300 0).set "a" (some 1) none 0).2.entries.length : ℤ) ≤
        (CacheState.init ℕ 300 0).max_entries) := by
  decide

/-- C3 (amended): provided `max_entries ≥ 1`, every sequence of `set` calls
starting from a freshly initialised cache keeps `|entries| ≤ maxEntries`
after each call returns; and whenever a `set` on a new key runs with the
cache at capacity (the eviction path), the evicted key is one with the
smallest `last_accessed` among the entries present at eviction time. -/
theorem C3_amended_capacity_and_lru {V : Type} (d : ℚ) (m : ℤ) (calls : List (SetCall V))
    (hm : 1 ≤ m) :
    (∀ s' ∈ (CacheState.init V d m).runSets calls, (s'.entries.length : ℤ) ≤ m) ∧
      (∀ (s : CacheState V) (k : String) (data : Option V) (ttl : Option ℚ) (now : ℚ),
        hasKey s.entries k = false → s.max_entries ≤ (s.entries.length : ℤ) →
        s.entries ≠ [] →
        ∃ q : String × CacheEntry V, q ∈ s.entries ∧
          (∀ p ∈ s.entries, q.2.last_accessed ≤ p.2.last_accessed) ∧
          (s.set k data ttl now).2.entries =
            insertEntry (removeKey s.entries q.1) k
              (CacheEntry.init data (effTtl ttl s.default_ttl) now) ∧
          (s.set k data ttl now).2.evictions = s.evictions + 1) := by
  constructor
  · intro s' hs'
    have := runSets_inv calls (CacheState.init V d m) hm (by simp [CacheState.init]; omega) s' hs'
    exact this.1
  · intro s k data ttl now hk hfull hne
    obtain ⟨q, hq⟩ := lruMin_isSome_of_ne_nil s.entries hne
    obtain ⟨hqmem, hqmin⟩ := lruMin_spec s.entries q hq
    obtain ⟨hent, hev⟩ := set_entries_of_evicting s k data ttl now q hk hfull hq
    exact ⟨q, hqmem, hqmin, hent, hev⟩

/-- C3 witness: the capacity bound after a concrete `set` on a fresh cache
with `max_entries = 2`, and a concrete at-capacity `set` that evicts the
least-recently-accessed key. -/
theorem C3_amended_witness :
    ((((CacheState.init ℕ 300 2).set "A" (some 1) none 0).2.entries.length : ℤ) ≤ 2) ∧
      (∃ q : String × CacheEntry ℕ,
        q ∈ [("a", (⟨some 0, 0, 300, 0, 1⟩ : CacheEntry ℕ)),
             ("b", (⟨some 0, 0, 300, 0, 5⟩ : CacheEntry ℕ))] ∧
        (∀ p ∈ [("a", (⟨some 0, 0, 300, 0, 1⟩ : CacheEntry ℕ)),
                ("b", (⟨some 0, 0, 300, 0, 5⟩ : CacheEntry ℕ))],
          q.2.last_accessed ≤ p.2.last_accessed) ∧
        ((⟨[("a", ⟨some 0, 0, 300, 0, 1⟩), ("b", ⟨some 0, 0, 300, 0, 5⟩)],
            300, 2, 0, 0, 0, 0, 0⟩ : CacheState ℕ).set "c" (some 9) none 7).2.entries =
          insertEntry
            (removeKey [("a", ⟨some 0, 0, 300, 0, 1⟩), ("b", ⟨some 0, 0, 300, 0, 5⟩)] q.1)
            "c"
            (CacheEntry.init (some 9)
              (effTtl none (⟨[("a", ⟨some 0, 0, 300, 0, 1⟩), ("b", ⟨some 0, 0, 300, 0, 5⟩)],
                300, 2, 0, 0, 0, 0, 0⟩ : CacheState ℕ).default_ttl) 7) ∧
        ((⟨[("a", ⟨some 0, 0, 300, 0, 1⟩), ("b", ⟨some 0, 0, 300, 0, 5⟩)],
            300, 2, 0, 0, 0, 0, 0⟩ : CacheState ℕ).set "c" (some 9) none 7).2.evictions =
          0 + 1) :=
  ⟨(C3_amended_capacity_and_lru 300 2 [⟨"A", some 1, none, 0⟩] (by decide)).1 _
      (by rw [CacheState.runSets]; exact List.mem_cons_self _ _),
   (C3_amended_capacity_and_lru (V := ℕ) 300 2 [] (by decide)).2
     (⟨[("a", ⟨some 0, 0, 300, 0, 1⟩), ("b", ⟨some 0, 0, 300, 0, 5⟩)],
        300, 2, 0, 0, 0, 0, 0⟩ : CacheState ℕ) "c" (some 9) none 7
     (by decide) (by decide) (by decide)⟩

/-- C5: for every token bucket and every sequence of `consume(n)` calls with
`n ≥ 0` (under non-negative capacity and refill rate and a forward-moving
clock), `0 ≤ tokens ≤ capacity` holds at every observation point; and from
a full bucket, `consume(capacity + 1)` returns `false` and leaves `tokens`
equal to `capacity` — no partial consumption. -/
theorem C5_token_bucket_invariant :
    (∀ (cap rate t0 : ℚ) (calls : List (ℚ × ℚ)),
        0 ≤ cap → 0 ≤ rate → (∀ p ∈ calls, 0 ≤ p.1) → timesOk t0 calls = true →
        ∀ b' ∈ (TokenBucket.init cap rate t0).runConsumes calls,
          0 ≤ b'.tokens ∧ b'.tokens ≤ b'.capacity) ∧
      (∀ (b : TokenBucket) (now : ℚ), 0 ≤ b.refill_rate → b.tokens = b.capacity →
        b.last_refill ≤ now →
        b.consume (b.capacity + 1) now =
          (false, { b with tokens := b.capacity, last_refill := now })) := by
  constructor
  · intro cap rate t0 calls hcap hrate hns htimes b' hb'
    exact runConsumes_inv calls (TokenBucket.init cap rate t0) hcap hrate hcap
      (le_refl cap) hns htimes b' hb'
  · intro b now hrate htok htime
    have hmin : min b.capacity (b.tokens + (now - b.last_refill) * b.refill_rate) =
        b.capacity := by
      rw [htok]
      have : 0 ≤ (now - b.last_refill) * b.refill_rate :=
        mul_nonneg (by linarith) hrate
      exact min_eq_left (by linarith)
    simp only [TokenBucket.consume, hmin]
    rw [if_neg (by linarith : ¬ (b.capacity + 1 ≤ b.capacity))]

/-- C5 witness: both parts at a concrete bucket (capacity 5, rate 1). -/
theorem C5_token_bucket_witness :
    (0 ≤ ((TokenBucket.init 5 1 0).consume 1 0).2.tokens ∧
      ((TokenBucket.init 5 1 0).consume 1 0).2.tokens ≤
        ((TokenBucket.init 5 1 0).consume 1 0).2.capacity) ∧
      (TokenBucket.mk 5 1 5 0).consume (5 + 1) 2 = (false, TokenBucket.mk 5 1 5 2) :=
  ⟨C5_token_bucket_invariant.1 5 1 0 [(1, 0)] (by decide) (by decide) (by decide) (by decide)
      ((TokenBucket.init 5 1 0).consume 1 0).2
      (by rw [TokenBucket.runConsumes]; exact List.mem_cons_self _ _),
   C5_token_bucket_invariant.2 (TokenBucket.mk 5 1 5 0) 2 (by decide) (by decide) (by decide)⟩

/-- C6 counterexample: with `maxRequests = N = 0` every call is refused, so
the claim's final clause — after `windowSeconds` elapse with no further
calls the next `isAllowed()` returns true again — fails: here the first
call (the `(N+1)`-th) returns false as claimed, but the call made well
after the window has elapsed still returns false, not true. -/
theorem C6_counterexample :
    ((SlidingWindowLimiter.mk 0 1 []).is_allowed 0).1 = false ∧
      ((((SlidingWindowLimiter.mk 0 1 []).is_allowed 0).2).is_allowed 10).1 = false := by
  constructor
  · rfl
  · rfl

/-- C6 (amended): for `maxRequests = N ≥ 1`, starting from a fresh window,
`N` calls within one window period all return true and the `(N+1)`-th call
within the same window returns false; a later call made once `windowSeconds`
have elapsed since every admitted timestamp returns true again. -/
theorem C6_amended_sliding_window (N : ℕ) (w : ℚ) (ts : List ℚ) (tLast tNext : ℚ)
    (hN : 1 ≤ N) (hlen : ts.length = N)
    (hwin : ∀ t ∈ ts ++ [tLast], ∀ u ∈ ts ++ [tLast], ¬(t ≤ u - w))
    (hgap : ∀ x ∈ ts, x ≤ tNext - w) :
    SlidingWindowLimiter.callResults ⟨N, w, []⟩ (ts ++ [tLast]) =
        List.replicate N true ++ [false] ∧
      (SlidingWindowLimiter.is_allowed
        (SlidingWindowLimiter.applyCalls ⟨N, w, []⟩ (ts ++ [tLast])) tNext).1 = true := by
  have hts : ∀ t ∈ ts, ∀ u ∈ ts, ¬(t ≤ u - w) := fun t ht u hu =>
    hwin t (List.mem_append_left _ ht) u (List.mem_append_left _ hu)
  obtain ⟨hres, happ⟩ := swl_run_all_true N w ts []
    (by simp [hlen]) (by simp) hts
  have hdrop : ts.dropWhile (fun x => decide (x ≤ tLast - w)) = ts := by
    apply dropWhile_eq_self_of_none
    intro x hx
    exact decide_eq_false (hwin x (List.mem_append_left _ hx) tLast
      (List.mem_append_right _ (List.mem_singleton.mpr rfl)))
  have hlast : SlidingWindowLimiter.is_allowed ⟨N, w, ts⟩ tLast = (false, ⟨N, w, ts⟩) := by
    rw [SlidingWindowLimiter.is_allowed]
    simp only [hdrop]
    rw [if_neg (by omega : ¬ (ts.length < N))]
  have happ' : SlidingWindowLimiter.applyCalls ⟨N, w, ([] : List ℚ)⟩ ts =
      ⟨N, w, ts⟩ := by
    rw [happ]
    simp
  constructor
  · rw [callResults_append, hres, happ']
    rw [SlidingWindowLimiter.callResults, hlast]
    simp [SlidingWindowLimiter.callResults, hlen]
  · rw [applyCalls_append, happ']
    rw [SlidingWindowLimiter.applyCalls, hlast]
    rw [SlidingWindowLimiter.applyCalls]
    rw [SlidingWindowLimiter.is_allowed]
    have hdropAll : ts.dropWhile (fun x => decide (x ≤ tNext - w)) = [] :=
      dropWhile_eq_nil_of_all _ _ (fun x hx => decide_eq_true (hgap x hx))
    simp only [hdropAll]
    rw [if_pos (by simpa using hN)]

/-- C6 witness: the amended statement for `N = 1`, `windowSeconds = 1`,
calls at times `0, 0` and a final call at time `5`. -/
theorem C6_amended_witness :
    SlidingWindowLimiter.callResults ⟨1, 1, []⟩ ([0] ++ [0]) =
        List.replicate 1 true ++ [false] ∧
      (SlidingWindowLimiter.is_allowed
        (SlidingWindowLimiter.applyCalls ⟨1, 1, []⟩ ([0] ++ [0])) 5).1 = true :=
  C6_amended_sliding_window 1 1 [0] 0 5 (by decide) rfl
    (by
      intro t ht u hu
      simp only [List.singleton_append, List.mem_cons, List.not_mem_nil, or_false] at ht hu
      rcases ht with rfl | rfl <;> rcases hu with rfl | rfl <;> norm_num)
    (by
      intro x hx
      simp only [List.mem_singleton] at hx
      subst hx
      norm_num)

/-- C7: a `is_allowed(endpoint, clientId)` call on the rate limiter service
with a configured global limiter that blocks the call returns a global-type
block and leaves both the per-(client, endpoint) limiter instances and the
endpoint configurations untouched: no endpoint-specific limiter instance is
created for that call. -/
theorem C7_global_block_no_endpoint_state (s : RateLimiterService)
    (endpoint client_id : String) (now : ℚ) (g : SlidingWindowLimiter)
    (hg : s.global_limiter = some g)
    (hblock : (g.is_allowed now).1 = false) :
    (s.is_allowed endpoint client_id now).1 = (false, LimitType.globalLimit) ∧
      (s.is_allowed endpoint client_id now).2.instances = s.instances ∧
      (s.is_allowed endpoint client_id now).2.configs = s.configs := by
  rw [RateLimiterService.is_allowed]
  simp only [hg, hblock, Bool.false_eq_true, if_false]
  exact ⟨trivial, trivial, trivial⟩

/-- C7 witness: a concrete service whose global limiter admits nothing
(`maxRequests = 0`) blocks the call and creates no endpoint instance. -/
theorem C7_global_block_witness :
    ((RateLimiterService.mk [("/api", LimiterConfig.sliding_window 5 60)] []
        (some ⟨0, 1, []⟩) ⟨0, 0, [], []⟩).is_allowed "/api" "1.2.3.4" 0).1 =
        (false, LimitType.globalLimit) ∧
      ((RateLimiterService.mk [("/api", LimiterConfig.sliding_window 5 60)] []
        (some ⟨0, 1, []⟩) ⟨0, 0, [], []⟩).is_allowed "/api" "1.2.3.4" 0).2.instances =
        (RateLimiterService.mk [("/api", LimiterConfig.sliding_window 5 60)] []
          (some ⟨0, 1, []⟩) ⟨0, 0, [], []⟩).instances ∧
      ((RateLimiterService.mk [("/api", LimiterConfig.sliding_window 5 60)] []
        (some ⟨0, 1, []⟩) ⟨0, 0, [], []⟩).is_allowed "/api" "1.2.3.4" 0).2.configs =
        (RateLimiterService.mk [("/api", LimiterConfig.sliding_window 5 60)] []
          (some ⟨0, 1, []⟩) ⟨0, 0, [], []⟩).configs :=
  C7_global_block_no_endpoint_state
    (RateLimiterService.mk [("/api", LimiterConfig.sliding_window 5 60)] []
      (some ⟨0, 1, []⟩) ⟨0, 0, [], []⟩) "/api" "1.2.3.4" 0 ⟨0, 1, []⟩ rfl rfl

/-- C4: for every operation wrapped by the retry executor (with at least one
attempt configured): an operation that always raises an error whose exact
type is in the immediate-reraise list is invoked exactly once and the error
is re-raised; an operation that always raises a retryable error is invoked
exactly `max_attempts` times, after which the configured fallback is
returned if one exists and otherwise the last error is re-raised; and an
operation that first succeeds on attempt `k ≤ max_attempts` is invoked
exactly `k` times and its result returned. -/
theorem C4_retry_attempt_counts {A : Type} (maxA : ℕ) (reraise : List ℕ)
    (fallback : Option A) (op : ℕ → Except PyExc A) (es : ℕ → PyExc) (v : A) (k : ℕ)
    (hmaxA : 1 ≤ maxA) :
    ((∀ i, op i = Except.error (es i)) → (∀ i, (es i).ty ∈ reraise) →
        withRetry maxA reraise fallback op = (RetryOutcome.raised (es 0), 1)) ∧
      ((∀ i, op i = Except.error (es i)) → (∀ i, (es i).ty ∉ reraise) →
        withRetry maxA reraise fallback op =
          ((match fallback with
            | some fb => RetryOutcome.ok fb
            | none => RetryOutcome.raised (es (maxA - 1))), maxA)) ∧
      (1 ≤ k → k ≤ maxA →
        (∀ i, i < k - 1 → op i = Except.error (es i) ∧ (es i).ty ∉ reraise) →
        op (k - 1) = Except.ok v →
        withRetry maxA reraise fallback op = (RetryOutcome.ok v, k)) := by
  obtain ⟨m, rfl⟩ : ∃ m, maxA = m + 1 := ⟨maxA - 1, by omega⟩
  refine ⟨?_, ?_, ?_⟩
  · intro hop hmem
    rw [withRetry, retryLoop_reraise_first op reraise m 0 none (es 0) (hop 0) (hmem 0)]
  · intro hop hmem
    rw [withRetry, retryLoop_always_error op reraise es hop hmem m 0 none]
    cases fallback with
    | none => simp
    | some fb => simp
  · intro hk1 hk2 hfail hok
    have hfail' : ∀ i, i < k - 1 →
        op (0 + i) = Except.error (es (0 + i)) ∧ (es (0 + i)).ty ∉ reraise := by
      intro i hi
      simpa using hfail i hi
    have hok' : op (0 + (k - 1)) = Except.ok v := by simpa using hok
    rw [withRetry, retryLoop_success_at op reraise es v (k - 1) (m + 1) 0 none
      hfail' hok' (by omega)]
    simp only [Nat.zero_add]
    rw [Nat.sub_add_cancel hk1]

/-- C4 witness: the three scenarios at concrete operations with
`max_attempts = 3`: an immediately re-raised error (one invocation), an
always-retryable error with no fallback (three invocations, last error
re-raised), and a success on the third attempt (three invocations). -/
theorem C4_retry_witness :
    withRetry 3 [5] (none : Option ℕ) (fun _ => Except.error ⟨5⟩) =
        (RetryOutcome.raised ⟨5⟩, 1) ∧
      withRetry 3 [9] (none : Option ℕ) (fun _ => Except.error ⟨5⟩) =
        (RetryOutcome.raised ⟨5⟩, 3) ∧
      withRetry 3 ([] : List ℕ) (none : Option ℕ)
          (fun i => if i < 2 then Except.error ⟨5⟩ else Except.ok 77) =
        (RetryOutcome.ok 77, 3) :=
  ⟨(C4_retry_attempt_counts 3 [5] none (fun _ => Except.error ⟨5⟩) (fun _ => ⟨5⟩) 0 3
      (by decide)).1 (fun _ => rfl) (by intro i; decide),
   by
    have h := (C4_retry_attempt_counts 3 [9] (none : Option ℕ) (fun _ => Except.error ⟨5⟩)
      (fun _ => ⟨5⟩) 0 3 (by decide)).2.1 (fun _ => rfl) (by intro i; decide)
    simpa using h,
   (C4_retry_attempt_counts 3 ([] : List ℕ) none
      (fun i => if i < 2 then Except.error ⟨5⟩ else Except.ok 77) (fun _ => ⟨5⟩) 77 3
      (by decide)).2.2 (by decide) (by decide)
      (by
        intro i hi
        interval_cases i <;> exact ⟨rfl, by decide⟩)
      rfl⟩

/-- C10: the immediate-reraise test is `type(e) in reraise_exceptions` —
exact runtime-class membership.  An exception whose class is a strict
subclass of a listed class (any subclass relation `sub`, which the code
never consults) but is not itself listed is treated as retryable: the
operation consumes all `max_attempts` attempts instead of surfacing
immediately, and the loop's immediate-reraise exit fires only for
exceptions whose exact type is in the list. -/
theorem C10_exact_type_reraise {A : Type} (maxA : ℕ) (reraise : List ℕ)
    (fallback : Option A) (op : ℕ → Except PyExc A) (es : ℕ → PyExc)
    (sub : ℕ → ℕ → Bool) (t : ℕ)
    (hmaxA : 2 ≤ maxA)
    (hop : ∀ i, op i = Except.error (es i))
    (hnotmem : ∀ i, (es i).ty ∉ reraise)
    (ht : t ∈ reraise) (hsub : sub (es 0).ty t = true) (hstrict : (es 0).ty ≠ t) :
    (withRetry maxA reraise fallback op).2 = maxA ∧
      (withRetry maxA reraise fallback op).2 ≠ 1 ∧
      ∀ (r a : ℕ) (last : Option PyExc) (e : PyExc) (n : ℕ),
        retryLoop op reraise r a last = LoopExit.reraise e n → e.ty ∈ reraise := by
  obtain ⟨m, rfl⟩ : ∃ m, maxA = m + 1 := ⟨maxA - 1, by omega⟩
  have hloop := retryLoop_always_error op reraise es hop hnotmem m 0 none
  refine ⟨?_, ?_, ?_⟩
  · rw [withRetry, hloop]
    cases fallback <;> simp
  · rw [withRetry, hloop]
    cases fallback <;> simp <;> omega
  · intro r a last e n h
    exact retryLoop_reraise_mem op reraise r a last e n h

/-- C10 witness: with `reraise = [3]`, an exception of type `5` (declared a
strict subclass of `3` by the ambient `sub` relation) is retried for all
`max_attempts = 2` attempts rather than re-raised immediately. -/
theorem C10_exact_type_witness :
    (withRetry 2 [3] (none : Option ℕ) (fun _ => Except.error ⟨5⟩)).2 = 2 ∧
      (withRetry 2 [3] (none : Option ℕ) (fun _ => Except.error ⟨5⟩)).2 ≠ 1 :=
  ⟨(C10_exact_type_reraise 2 [3] none (fun _ => Except.error ⟨5⟩) (fun _ => ⟨5⟩)
      (fun a b => a = 5 && b = 3) 3 (by decide) (fun _ => rfl)
      (by intro i; show (5 : ℕ) ∉ [3]; decide)
      (by decide) (by decide) (by decide)).1,
   (C10_exact_type_reraise 2 [3] none (fun _ => Except.error ⟨5⟩) (fun _ => ⟨5⟩)
      (fun a b => a = 5 && b = 3) 3 (by decide) (fun _ => rfl)
      (by intro i; show (5 : ℕ) ∉ [3]; decide)
      (by decide) (by decide) (by decide)).2.1⟩

end LogsIA
